import Mathlib

/-!
Verification of the markov module (markov/markov.py): n-gram index construction,
frequency-normalized scoring, and random-walk text generation over a sorted-set
store.  The redis client is modelled as an association list from (key, member)
pairs to integer scores; every client call is an operation on that store, and
the stateful functions thread the store explicitly.  Randomness (random.choice)
is modelled by an oracle `rand : Nat → Nat` supplying selection indices, with a
tick counter threaded through the calls.  The unbounded Python recursions and
while-loops are modelled with explicit fuel; exhausted fuel is reported as a
distinguished "no result" outcome.
-/

/-- SEPARATOR = ':' from the source. -/
def SEPARATOR : String := ":"

/-- The STOP sentinel character (source: STOP = '\x02'). -/
def STOPchar : Char := '\x02'

/-- The STOP sentinel token. -/
def STOP : String := "\x02"

/-- PUNCTUATION list from the source. -/
def PUNCTUATION : List String :=
  [",", ".", ";", "!", "?", "(", ")", "...", "....", "....."]

/-- Python's SEPARATOR.join: join a list of strings with ':'. -/
def sepJoin : List String → String
  | [] => ""
  | [t] => t
  | t :: ts => t ++ ":" ++ sepJoin ts

/-- Argument to make_key: either an already-encoded string or a token sequence
(the source branches on `type(key) not in [str, unicode]`). -/
inductive MKInput
  | str (s : String)
  | toks (l : List String)

/-- make_key(key, prefix=None): join a token list with the separator, prepending
the namespace when one is given and truthy; an already-encoded string is
returned unchanged.  (The source's `prefix` parameter is called `pre` here.) -/
def make_key (key : MKInput) (pre : Option String) : String :=
  match key with
  | .str s => s
  | .toks l =>
    let joined := sepJoin l
    match pre with
    | some p => if p = "" then joined else sepJoin [p, joined]
    | none => joined

/-- Split a character list at every separator occurrence (helper for
Python's str.split(SEPARATOR), which never returns an empty list). -/
def splitChars (sep : Char) : List Char → List (List Char)
  | [] => [[]]
  | c :: cs =>
    if c = sep then [] :: splitChars sep cs
    else
      match splitChars sep cs with
      | [] => [[c]]
      | l :: ls => (c :: l) :: ls

/-- Python's str.split(SEPARATOR) on a string. -/
def pySplit (s : String) : List String :=
  (splitChars ':' s.data).map (fun l => String.mk l)

/-- The store backing the model: an association list from (key, member) pairs to
scores, in first-insertion order.  This models the redis database restricted to
the sorted-set keys the module uses. -/
abbrev Store := List ((String × String) × Nat)

/-- ZINCRBY key member 1: bump the score of (key, member), creating it at 1. -/
def zincrby (s : Store) (k c : String) : Store :=
  match s with
  | [] => [((k, c), 1)]
  | e :: rest => if e.1 = (k, c) then (e.1, e.2 + 1) :: rest else e :: zincrby rest k c

/-- ZSCORE key member: the score of a member, none when absent. -/
def zscorePure (s : Store) (k c : String) : Option Nat :=
  match s with
  | [] => none
  | e :: rest => if e.1 = (k, c) then some e.2 else zscorePure rest k c

/-- All (member, score) entries of one key, in store order. -/
def memberList (s : Store) (k : String) : List (String × Nat) :=
  match s with
  | [] => []
  | ((k', c), n) :: rest =>
    if k' = k then (c, n) :: memberList rest k else memberList rest k

/-- ZREVRANGE key 0 -1: the members of a key.  (Redis returns them in
descending-score order; membership is all that the proofs use, and every
selection from this list goes through the arbitrary random oracle.) -/
def membersOf (s : Store) (k : String) : List String :=
  (memberList s k).map (fun m => m.1)

/-- The score of a member with absent treated as 0. -/
def freq (s : Store) (k c : String) : Nat :=
  (zscorePure s k c).getD 0

/-- The maximum member score under a key, 0 when the key is absent/empty.
This is the score carried by the first element of ZREVRANGE key 0 0. -/
def maxScore (s : Store) (k : String) : Nat :=
  ((memberList s k).map (fun m => m.2)).foldr Nat.max 0

/-- max_for_key(key, client): score of the top completion via
ZREVRANGE key 0 0 WITHSCORES, or 0 when the key holds nothing.  The read leaves
the store unchanged. -/
def max_for_key (key : String) (s : Store) : Nat × Store :=
  (maxScore s key, s)

/-- score_for_completion(key, completion, client, normalize_to=100):
(raw_score or 0) / (max_for_key or 1) * normalize_to, threading the store. -/
def score_for_completion (key completion : String) (normalizeTo : ℚ) (s : Store) : ℚ × Store :=
  let raw : ℚ := ((zscorePure s key (make_key (.str completion) none)).getD 0 : Nat)
  let (m, s₁) := max_for_key key s
  let maximum : ℚ := if m = 0 then 1 else (m : ℚ)
  (raw / maximum * normalizeTo, s₁)

/-- The value computed by score_for_completion at the default normalize_to. -/
def scoreVal (s : Store) (k c : String) : ℚ :=
  (score_for_completion k c 100 s).1

/-- get_key_and_completion(line, key_length, completion_length, prefix):
some (key, completion) when the line still holds a STOP-free key window,
none for the source's (False, False).  The completion is the encoded window
for completion_length > 1, else the single following token, or STOP when the
line ends at the key boundary (the source's IndexError branch). -/
def get_key_and_completion (line : List String) (kl cl : Nat) (pre : Option String) :
    Option (String × String) :=
  if kl ≤ line.length ∧ STOP ∉ line.take kl then
    let key := make_key (.toks (line.take kl)) pre
    let comp :=
      if 1 < cl then make_key (.toks ((line.drop kl).take cl)) none
      else
        match (line.drop kl).head? with
        | some tok => make_key (.str tok) none
        | none => make_key (.str STOP) none
    some (key, comp)
  else none

/-- add_line_to_index, recursion on the line's suffixes modelled with fuel
(the wrapper supplies fuel line.length + 1, enough whenever key_length ≥ 1;
the source diverges for key_length = 0).  A falsy key or completion (empty
string) ends the whole line, mirroring `if key and completion`. -/
def addLineAux : Nat → List String → Nat → Nat → Option String → Store → Store
  | 0, _, _, _, _, s => s
  | fuel + 1, line, kl, cl, pre, s =>
    match get_key_and_completion line kl cl pre with
    | some (key, comp) =>
      if key ≠ "" ∧ comp ≠ "" then
        addLineAux fuel line.tail kl cl pre (zincrby s key (make_key (.str comp) none))
      else s
    | none => s

/-- add_line_to_index(line, client, key_length, completion_length, prefix). -/
def add_line_to_index (line : List String) (kl cl : Nat) (pre : Option String) (s : Store) :
    Store :=
  addLineAux (line.length + 1) line kl cl pre s

/-- The (key, completion) pairs the line scan visits, in order: the offsets
whose windows survive `if key and completion`, produced by the same recursion
as add_line_to_index / _score_for_line. -/
def windowsAux : Nat → List String → Nat → Nat → Option String → List (String × String)
  | 0, _, _, _, _ => []
  | fuel + 1, line, kl, cl, pre =>
    match get_key_and_completion line kl cl pre with
    | some (key, comp) =>
      if key ≠ "" ∧ comp ≠ "" then (key, comp) :: windowsAux fuel line.tail kl cl pre
      else []
    | none => []

/-- The visited (key, completion) pairs of a whole line. -/
def lineWindows (line : List String) (kl cl : Nat) (pre : Option String) :
    List (String × String) :=
  windowsAux (line.length + 1) line kl cl pre

/-- _score_for_line(line, client, key_length, completion_length, prefix, count):
accumulates completion scores and the window count over the line's suffixes,
threading the store through every read; fuel as in addLineAux. -/
def scoreForLineAux : Nat → List String → Nat → Nat → Option String → Nat → Store →
    (ℚ × Nat) × Store
  | 0, _, _, _, _, count, s => ((0, count), s)
  | fuel + 1, line, kl, cl, pre, count, s =>
    match get_key_and_completion line kl cl pre with
    | some (key, comp) =>
      if key ≠ "" ∧ comp ≠ "" then
        let (sc, s₁) := score_for_completion key comp 100 s
        let ((newScore, cnt), s₂) := scoreForLineAux fuel line.tail kl cl pre (count + 1) s₁
        ((sc + newScore, cnt), s₂)
      else ((0, count), s)
    | none => ((0, count), s)

/-- score_for_line(line, client, key_length, completion_length, prefix):
the accumulated score divided by the window count, 0 when no window scored. -/
def score_for_line (line : List String) (kl cl : Nat) (pre : Option String) (s : Store) :
    ℚ × Store :=
  match scoreForLineAux (line.length + 1) line kl cl pre 0 s with
  | ((score, count), s') => (if 0 < count then score / (count : ℚ) else 0, s')

/-- The value score_for_line returns. -/
def scoreLineVal (s : Store) (line : List String) (kl cl : Nat) (pre : Option String) : ℚ :=
  (score_for_line line kl cl pre s).1

/-- Fold a sequence of (key, completion) increments over a store. -/
def applyIncr (s : Store) (ws : List (String × String)) : Store :=
  ws.foldl (fun st p => zincrby st p.1 p.2) s

/-- Bump one member inside a key's (member, score) association list:
increment the first matching member, else append it with score 1. -/
def bumpAssoc : List (String × Nat) → String → List (String × Nat)
  | [], c => [(c, 1)]
  | (c₁, n) :: rest, c =>
    if c₁ = c then (c₁, n + 1) :: rest else (c₁, n) :: bumpAssoc rest c

/-- The three-line fixture the repository's tests index with key_length 2,
completion_length 1, namespace "test" into an empty store. -/
def testStore : Store :=
  add_line_to_index ["i", "ate", "a", "sandwich"] 2 1 (some "test")
    (add_line_to_index ["i", "ate", "one", "peach"] 2 1 (some "test")
      (add_line_to_index ["i", "ate", "a", "peach"] 2 1 (some "test") []))

/-- count_tokens(seed, count_punctuation). -/
def count_tokens (seed : List String) (countPunct : Bool) : Nat :=
  if countPunct then seed.length
  else (seed.filter (fun item => decide (item ∉ PUNCTUATION))).length

/-- Python's seed[-1 * key_length:]: the trailing key_length tokens, except
that key_length = 0 yields the whole list (seed[0:]). -/
def lastSlice (kl : Nat) (s : List String) : List String :=
  if kl = 0 then s else s.drop (s.length - kl)

/-- The terminal `if STOP in seed: seed.remove(STOP)` step of generate. -/
def stripStop (l : List String) : List String :=
  if STOP ∈ l then l.erase STOP else l

/-- random.choice modelled through the oracle: pick the element at index
rand t modulo the length; none exactly when the list is empty (where Python
raises IndexError). -/
def pickD (rand : Nat → Nat) (t : Nat) (l : List String) : Option String :=
  l.get? (rand t % l.length)

/-- The distinct keys present in the store (the redis key space). -/
def allKeys (s : Store) : List String :=
  (s.map (fun e => e.1.1)).dedup

/-- client.keys("prefix:*"): the keys of the namespace. -/
def keysWithNamespace (s : Store) (p : String) : List String :=
  (allKeys s).filter (fun k => (p ++ ":").data.isPrefixOf k.data)

/-- Substring occurrence on character lists (what a `*term*` glob tests). -/
def containsSub (needle : List Char) : List Char → Bool
  | [] => needle.isEmpty
  | c :: t => needle.isPrefixOf (c :: t) || containsSub needle t

/-- client.keys for one relevance term: pattern "prefix:*term*" under a truthy
prefix, else "*term*" over the whole key space. -/
def keysMatchingTerm (s : Store) (pre : Option String) (term : String) : List String :=
  match pre with
  | some p =>
    if p = "" then (allKeys s).filter (fun k => containsSub term.data k.data)
    else
      (allKeys s).filter (fun k =>
        (p ++ ":").data.isPrefixOf k.data && containsSub term.data (k.data.drop (p.length + 1)))
  | none => (allKeys s).filter (fun k => containsSub term.data k.data)

/-- The `if prefix in seed: seed.remove(prefix)` step of both seed selectors. -/
def stripPre (pre : Option String) (seed : List String) : List String :=
  match pre with
  | some p => if p ∈ seed then seed.erase p else seed
  | none => seed

/-- Outcome of seed selection: a key (None possible), seed and oracle tick, or
an uncaught exception, or fuel exhaustion (the source loop not terminating
within the modelled bound). -/
inductive SelOut
  | ok (key : Option String) (seed : List String) (t : Nat)
  | raised
  | spun
deriving DecidableEq

/-- The while-loop of get_random_key_and_seed: redraw a random namespace key
until the split seed is nonempty and punctuation-free.  random.choice over an
empty key list (empty key space) raises IndexError, and a None randomkey makes
key.split raise AttributeError: both are `raised`. -/
def randLoop (store : Store) (rand : Nat → Nat) (pre : Option String) :
    Nat → Nat → Option String → List String → SelOut
  | 0, _, _, _ => .spun
  | f + 1, t, key, seed =>
    if seed.length = 0 ∨ 0 < (seed.filter (fun item => decide (item ∈ PUNCTUATION))).length then
      let keys :=
        match pre with
        | some p => if p = "" then allKeys store else keysWithNamespace store p
        | none => allKeys store
      match pickD rand t keys with
      | some k => randLoop store rand pre f (t + 1) (some k) (pySplit k)
      | none => .raised
    else .ok key (stripPre pre seed) t

/-- get_random_key_and_seed(client, prefix).  A falsy prefix takes the
client.randomkey() branch, i.e. draws from the whole key space. -/
def get_random_key_and_seed (store : Store) (rand : Nat → Nat) (fuel t : Nat)
    (pre : Option String) : SelOut :=
  randLoop store rand pre fuel t none []

/-- The while-loop of get_relevant_key_and_seed: draw among the deduplicated
keys matching any relevance term; an empty candidate set raises IndexError
which is caught and breaks out of the loop. -/
def relLoop (store : Store) (rand : Nat → Nat) (ts : List String) (pre : Option String)
    (tries : Nat) : Nat → Nat → Nat → Option String → List String → SelOut
  | 0, _, _, _, _ => .spun
  | f + 1, t, tried, key, seed =>
    if seed.length = 0 ∨
        (0 < (seed.filter (fun item => decide (item ∈ PUNCTUATION))).length ∧ tried < tries) then
      let keys := (ts.foldl (fun acc term => acc ++ keysMatchingTerm store pre term) []).dedup
      match pickD rand t keys with
      | some k => relLoop store rand ts pre tries f (t + 1) (tried + 1) (some k) (pySplit k)
      | none => .ok key (stripPre pre seed) t
    else .ok key (stripPre pre seed) t

/-- get_relevant_key_and_seed(client, relevant_terms, prefix, tries=10). -/
def get_relevant_key_and_seed (store : Store) (rand : Nat → Nat) (ts : List String)
    (pre : Option String) (tries fuel t : Nat) : SelOut :=
  relLoop store rand ts pre tries fuel t 0 none []

/-- get_key_and_seed: relevance-biased when relevant_terms is truthy and
nonempty, else uniform random. -/
def get_key_and_seed (store : Store) (rand : Nat → Nat) (fuel t : Nat) (pre : Option String)
    (rterms : Option (List String)) : SelOut :=
  match rterms with
  | some ts =>
    if 0 < ts.length then get_relevant_key_and_seed store rand ts pre 10 fuel t
    else get_random_key_and_seed store rand fuel t pre
  | none => get_random_key_and_seed store rand fuel t pre

/-- get_completion(client, key, exclude=[], relevant_terms=None): draw from the
key's members minus exclude, preferring members among the relevance terms (an
empty relevant pool raises IndexError, caught, falling back to any member).
A None key is a lookup that yields no members. -/
def get_completion (store : Store) (rand : Nat → Nat) (t : Nat) (key : Option String)
    (exclude : List String) (rterms : Option (List String)) : Option String × Nat :=
  match key with
  | none => (none, t)
  | some k =>
    let completions := (membersOf store k).filter (fun c => decide (c ∉ exclude))
    if 0 < completions.length then
      match rterms with
      | some ts =>
        if ts = [] then
          match pickD rand t completions with
          | some c => (some c, t + 1)
          | none => (none, t)
        else
          match pickD rand t (completions.filter (fun c => decide (c ∈ ts))) with
          | some c => (some c, t + 1)
          | none =>
            match pickD rand t completions with
            | some c => (some c, t + 1)
            | none => (none, t)
      | none =>
        match pickD rand t completions with
        | some c => (some c, t + 1)
        | none => (none, t)
    else (none, t)

/-- Result of the quality-floor while-loop: the completion it settles on with
the oracle tick, an exception (score_for_completion applied to a None
completion raises TypeError in join), or a loop that never exits. -/
inductive QLRes
  | out (c : Option String) (t : Nat)
  | raised
  | spun
deriving DecidableEq

/-- The quality-floor loop of generate (lines 124-131): while the current
completion scores below the floor, append it to exclude and redraw.  The
source builds `exclude` but calls get_completion WITHOUT passing it (its
default [] is used); the dead accumulation is mirrored faithfully here. -/
def qualityLoop (store : Store) (rand : Nat → Nat) (qf : ℚ) (k : String)
    (rterms : Option (List String)) : Nat → Nat → String → List String → QLRes
  | 0, _, _, _ => .spun
  | f + 1, t, comp, excl =>
    if scoreVal store k comp < qf then
      match get_completion store rand t (some k) [] rterms with
      | (some c, t') => qualityLoop store rand qf k rterms f t' c (excl ++ [comp])
      | (none, _) => .raised
    else .out (some comp) t

/-- Outcome of generate: a returned token list, Python's implicit None return
(the max_words overshoot fall-through), an uncaught exception, or divergence
(no result within the modelled fuel). -/
inductive GenOut
  | list (l : List String)
  | pyNone
  | raised
  | spun
deriving DecidableEq

/-- generate(client, seed, prefix, max_words, quality_floor, key_length,
count_punctuation, relevant_terms), with recursion depth and the inner loops
bounded by fuel.  A None seed goes through seed selection; otherwise the key is
the re-encoded trailing window of the seed. -/
def generate (store : Store) (rand : Nat → Nat) : Nat → Nat → Option (List String) →
    Option String → Nat → ℚ → Nat → Bool → Option (List String) → GenOut
  | 0, _, _, _, _, _, _, _, _ => .spun
  | fuel + 1, t, seedArg, pre, maxW, qf, kl, cp, rterms =>
    let sel : SelOut :=
      match seedArg with
      | none => get_key_and_seed store rand (fuel + 1) t pre rterms
      | some s => .ok (some (make_key (.toks (lastSlice kl s)) pre)) s t
    match sel with
    | .raised => .raised
    | .spun => .spun
    | .ok key seed t₁ =>
      match get_completion store rand t₁ key [] rterms with
      | (c0, t₂) =>
        let floorRes : QLRes :=
          match c0 with
          | some c =>
            if c ≠ "" ∧ 0 < qf then
              match key with
              | some k => qualityLoop store rand qf k rterms (fuel + 1) t₂ c []
              | none => .out (some c) t₂
            else .out (some c) t₂
          | none => .out none t₂
        match floorRes with
        | .raised => .raised
        | .spun => .spun
        | .out cF t₃ =>
          match cF with
          | some c =>
            if c = "" then .list (stripStop seed)
            else
              let comp := pySplit c
              if count_tokens seed cp + count_tokens comp cp < maxW then
                generate store rand fuel t₃ (some (seed ++ comp)) pre maxW qf kl cp rterms
              else if count_tokens seed cp + count_tokens comp cp = maxW then
                .list (seed ++ (if STOP ∈ comp then comp.erase STOP else comp))
              else .pyNone
          | none => .list (stripStop seed)

/-- A store member a training run can produce with clean tokens: the STOP
sentinel, or a nonempty token free of the separator and the STOP character. -/
def GoodMember (m : String) : Prop :=
  m = STOP ∨ (m ≠ "" ∧ ':' ∉ m.data ∧ STOPchar ∉ m.data)

instance : DecidablePred GoodMember := fun m => by unfold GoodMember; infer_instance

/-- A well-formed store: every member is good, and no key containing the STOP
character holds members (indexing never writes under a STOP window). -/
def WellFormedStore (s : Store) : Prop :=
  ∀ e ∈ s, GoodMember e.1.2 ∧ STOPchar ∉ e.1.1.data

instance : DecidablePred WellFormedStore := fun s => by unfold WellFormedStore; infer_instance

/-- Modelled from the spec (§4.2 / claim C3): the key at offset i of the
spec's sliding-window loop. -/
def specKey (line : List String) (kl : Nat) (pre : Option String) (i : Nat) : String :=
  make_key (.toks ((line.drop i).take kl)) pre

/-- Modelled from the spec (§4.2 / claim C3): the encoded completion at offset
i — the encoded completion window for completion_length > 1, else the single
token after the key, or STOP when the line ends at the key boundary. -/
def specComp (line : List String) (kl cl : Nat) (i : Nat) : String :=
  if 1 < cl then make_key (.toks ((line.drop (i + kl)).take cl)) none
  else
    match (line.drop (i + kl)).head? with
    | some tok => tok
    | none => STOP

/-- Modelled from the spec (claim C3 as amended): offset i is processed when
its window is STOP-free and its encoded key and completion are nonempty. -/
def specGood (line : List String) (kl cl : Nat) (pre : Option String) (i : Nat) : Bool :=
  decide (STOP ∉ (line.drop i).take kl) && specKey line kl pre i ≠ "" &&
    specComp line kl cl i ≠ ""

/-- Modelled from the spec (§4.2 / claim C3): the per-offset loop — every
starting offset i while i + key_length ≤ len(line), stopping the whole line at
the first offset that fails specGood, each contributing its (key, completion). -/
def specWindows (line : List String) (kl cl : Nat) (pre : Option String) :
    List (String × String) :=
  ((List.range (line.length + 1 - kl)).takeWhile (specGood line kl cl pre)).map
    (fun i => (specKey line kl pre i, specComp line kl cl i))

/-! ### Basic facts about the codec and the store -/

theorem make_key_str (s : String) (pre : Option String) : make_key (.str s) pre = s := rfl

theorem score_for_completion_eq (k c : String) (n : ℚ) (s : Store) :
    score_for_completion k c n s =
      ((freq s k c : ℚ) / (if maxScore s k = 0 then 1 else (maxScore s k : ℚ)) * n, s) := rfl

theorem scoreVal_eq (s : Store) (k c : String) :
    scoreVal s k c =
      (freq s k c : ℚ) / (if maxScore s k = 0 then 1 else (maxScore s k : ℚ)) * 100 := rfl

theorem zscorePure_of_memberList_nil {s : Store} {k : String} (h : memberList s k = [])
    (c : String) : zscorePure s k c = none := by
  induction s with
  | nil => rfl
  | cons e rest ih =>
    obtain ⟨⟨k', c'⟩, n⟩ := e
    by_cases hk : k' = k
    · simp [memberList, hk] at h
    · have hne : (k', c') ≠ (k, c) := by simp [hk]
      simp [memberList, hk] at h
      simp [zscorePure, hne, ih h]

/-! ### C10: make_key on already-encoded keys, and idempotence -/

/-- C10: make_key applied to an already-encoded key (a string rather than a
token sequence) returns it unchanged, ignoring the prefix; consequently
make_key is idempotent: make_key(make_key(x, p), p) = make_key(x, p). -/
theorem c10_make_key_idempotent :
    (∀ (s : String) (pre : Option String), make_key (.str s) pre = s) ∧
    (∀ (x : MKInput) (pre : Option String),
      make_key (.str (make_key x pre)) pre = make_key x pre) :=
  ⟨fun _ _ => rfl, fun _ _ => rfl⟩

/-! ### C8: make_key on an empty token list -/

/-- C8 counterexample: the claim says make_key fails with InvalidInput on an
empty token list; in fact it returns a value — the namespace followed by the
bare separator — for the concrete namespace "test" (and "" without one). -/
theorem c8_counterexample :
    make_key (.toks []) (some "test") = "test:" ∧ make_key (.toks []) none = "" := by
  constructor <;> rfl

/-- C8 as amended: make_key does not fail on an empty token list; it returns
the namespace followed by the separator when a truthy namespace is given, and
the empty string otherwise. -/
theorem c8_make_key_empty_tokens (pre : Option String) :
    make_key (.toks []) pre =
      match pre with
      | some p => if p = "" then "" else p ++ ":"
      | none => "" := by
  match pre with
  | none => rfl
  | some p =>
    by_cases hp : p = "" <;> simp [make_key, sepJoin, hp]

/-! ### C6: empty key space at random seed selection -/

/-- C6 counterexample: on an empty store the claim says seed selection surfaces
an empty result and no exception; the code instead raises (random.choice over
the empty namespace key list raises IndexError). -/
theorem c6_counterexample :
    get_random_key_and_seed ([] : Store) (fun _ => 0) 3 0 (some "test") = .raised := by
  decide

/-- C6 as amended: when the namespace's key space is empty,
get_random_key_and_seed does not loop forever: on its first iteration it
raises (random.choice of the empty key list), and the exception propagates to
the caller instead of an empty result. -/
theorem c6_empty_keyspace_raises (store : Store) (rand : Nat → Nat) (p : String) (f t : Nat)
    (hp : p ≠ "") (hempty : keysWithNamespace store p = []) (hf : 0 < f) :
    get_random_key_and_seed store rand f t (some p) = .raised := by
  obtain ⟨f', rfl⟩ : ∃ f', f = f' + 1 := ⟨f - 1, (Nat.succ_pred_eq_of_pos hf).symm⟩
  simp [get_random_key_and_seed, randLoop, hp, hempty, pickD]

theorem c6_witness :
    ("zzz" : String) ≠ "" ∧ keysWithNamespace testStore "zzz" = [] ∧ 0 < 4 ∧
      get_random_key_and_seed testStore (fun _ => 0) 4 0 (some "zzz") = .raised :=
  ⟨by decide, by decide, by decide,
    c6_empty_keyspace_raises testStore (fun _ => 0) "zzz" 4 0 (by decide) (by decide) (by decide)⟩

/-! ### C3 counterexample: completion_length > 1 at the line end -/

/-- C3 counterexample: for line ["a","b"], key_length 2, completion_length 2,
offset 0 satisfies i + key_length ≤ len(line) and its window is STOP-free, so
the claim demands exactly one increment (of the encoded empty completion
window under "test:a:b"); the code performs no increment at all — the encoded
completion "" is falsy and ends the line. -/
theorem c3_counterexample :
    add_line_to_index ["a", "b"] 2 2 (some "test") [] = ([] : Store) ∧
      zscorePure (add_line_to_index ["a", "b"] 2 2 (some "test") []) "test:a:b" "" = none := by
  constructor <;> rfl

/-! ### Store characterization under increments -/

theorem zscorePure_zincrby (s : Store) (k c K C : String) :
    zscorePure (zincrby s k c) K C =
      if k = K ∧ c = C then some (freq s K C + 1) else zscorePure s K C := by
  induction s with
  | nil =>
    by_cases h : k = K ∧ c = C
    · obtain ⟨rfl, rfl⟩ := h
      simp [zincrby, zscorePure, freq]
    · have : (k, c) ≠ (K, C) := by simpa [Prod.ext_iff] using h
      simp [zincrby, zscorePure, this, h]
  | cons e rest ih =>
    by_cases he : e.1 = (k, c)
    · by_cases h : k = K ∧ c = C
      · obtain ⟨rfl, rfl⟩ := h
        simp [zincrby, zscorePure, he, freq]
      · have hne : e.1 ≠ (K, C) := by
          rw [he]; simpa [Prod.ext_iff] using h
        simp [zincrby, zscorePure, he, hne, h]
    · by_cases hKC : e.1 = (K, C)
      · have h : ¬(k = K ∧ c = C) := by
          rintro ⟨rfl, rfl⟩; exact he hKC
        have h' : ¬(K = k ∧ C = c) := fun hx => h ⟨hx.1.symm, hx.2.symm⟩
        simp [zincrby, zscorePure, he, hKC, h, h']
      · simp [zincrby, zscorePure, he, hKC, ih, freq]

theorem freq_zincrby (s : Store) (k c K C : String) :
    freq (zincrby s k c) K C =
      freq s K C + (if k = K ∧ c = C then 1 else 0) := by
  by_cases h : k = K ∧ c = C <;> simp [freq, zscorePure_zincrby, h]

theorem freq_applyIncr (ws : List (String × String)) (s : Store) (K C : String) :
    freq (applyIncr s ws) K C =
      freq s K C + ws.countP (fun p => decide (p = (K, C))) := by
  induction ws generalizing s with
  | nil => simp [applyIncr]
  | cons p ws ih =>
    have hstep : applyIncr s (p :: ws) = applyIncr (zincrby s p.1 p.2) ws := rfl
    rw [hstep, ih, freq_zincrby]
    by_cases h : p = (K, C)
    · obtain rfl := h
      simp [List.countP_cons]
      ring
    · have h' : ¬(p.1 = K ∧ p.2 = C) := by
        rintro ⟨h1, h2⟩; exact h (Prod.ext h1 h2)
      simp [List.countP_cons, h, h']

theorem memberList_zincrby (s : Store) (k c K : String) :
    memberList (zincrby s k c) K =
      if k = K then bumpAssoc (memberList s K) c else memberList s K := by
  induction s with
  | nil =>
    by_cases h : k = K <;> simp [zincrby, memberList, bumpAssoc, h]
  | cons e rest ih =>
    obtain ⟨⟨k₁, c₁⟩, n⟩ := e
    by_cases he : k₁ = k ∧ c₁ = c
    · obtain ⟨rfl, rfl⟩ := he
      by_cases hk : k₁ = K
      · subst hk
        simp [zincrby, memberList, bumpAssoc]
      · simp [zincrby, memberList, hk]
    · have he' : ¬((k₁, c₁) = (k, c)) := by simpa [Prod.ext_iff] using he
      by_cases hk₁ : k₁ = K
      · subst hk₁
        by_cases hk : k = k₁
        · subst hk
          have hcc : ¬(c₁ = c) := fun h => he ⟨rfl, h⟩
          simp [zincrby, memberList, he', ih, bumpAssoc, hcc]
        · simp [zincrby, memberList, he', ih, hk, Ne.symm hk]
      · by_cases hkK : k = K
        · subst hkK
          simp [zincrby, memberList, he', ih, hk₁]
        · simp [zincrby, memberList, he', ih, hk₁, hkK]

theorem memberList_applyIncr (ws : List (String × String)) (s : Store) (K : String) :
    memberList (applyIncr s ws) K =
      (ws.filter (fun p => decide (p.1 = K))).foldl (fun ms p => bumpAssoc ms p.2)
        (memberList s K) := by
  induction ws generalizing s with
  | nil => simp [applyIncr]
  | cons p ws ih =>
    have hstep : applyIncr s (p :: ws) = applyIncr (zincrby s p.1 p.2) ws := rfl
    rw [hstep, ih, memberList_zincrby]
    by_cases h : p.1 = K <;> simp [h, List.filter_cons]

theorem foldl_bumpAssoc_const (c₀ : String) (l : List (String × String))
    (h : ∀ p ∈ l, p.2 = c₀) (j : Nat) :
    l.foldl (fun ms p => bumpAssoc ms p.2) [(c₀, j)] = [(c₀, j + l.length)] := by
  induction l generalizing j with
  | nil => simp
  | cons p l ih =>
    have hp : p.2 = c₀ := h p (by simp)
    have hl : ∀ q ∈ l, q.2 = c₀ := fun q hq => h q (by simp [hq])
    have hb : bumpAssoc [(c₀, j)] p.2 = [(c₀, j + 1)] := by
      rw [hp]; simp [bumpAssoc]
    rw [List.foldl_cons, hb, ih hl (j + 1)]
    have harith : j + 1 + l.length = j + (p :: l).length := by
      simp [List.length_cons]; omega
    rw [harith]

theorem foldl_bumpAssoc_const_nil (c₀ : String) (l : List (String × String))
    (h : ∀ p ∈ l, p.2 = c₀) (hne : l ≠ []) :
    l.foldl (fun ms p => bumpAssoc ms p.2) [] = [(c₀, l.length)] := by
  obtain ⟨p, l', rfl⟩ := List.exists_cons_of_ne_nil hne
  have hp : p.2 = c₀ := h p (by simp)
  have hl : ∀ q ∈ l', q.2 = c₀ := fun q hq => h q (by simp [hq])
  have hb : bumpAssoc [] p.2 = [(c₀, 1)] := by rw [hp]; rfl
  rw [List.foldl_cons, hb, foldl_bumpAssoc_const c₀ l' hl 1]
  have harith : 1 + l'.length = (p :: l').length := by simp [List.length_cons]; omega
  rw [harith]

/-! ### The line scan as a fold over its visited windows -/

theorem addLineAux_eq_applyIncr (fuel : Nat) (line : List String) (kl cl : Nat)
    (pre : Option String) (s : Store) :
    addLineAux fuel line kl cl pre s = applyIncr s (windowsAux fuel line kl cl pre) := by
  induction fuel generalizing line s with
  | zero => rfl
  | succ f ih =>
    simp only [addLineAux, windowsAux]
    cases hgkc : get_key_and_completion line kl cl pre with
    | none => rfl
    | some kc =>
      obtain ⟨key, comp⟩ := kc
      by_cases hg : key ≠ "" ∧ comp ≠ ""
      · obtain ⟨h1, h2⟩ := hg
        simp [h1, h2, ih, applyIncr, make_key]
      · simp [hg, applyIncr]

theorem add_line_eq_applyIncr (line : List String) (kl cl : Nat) (pre : Option String)
    (s : Store) :
    add_line_to_index line kl cl pre s = applyIncr s (lineWindows line kl cl pre) :=
  addLineAux_eq_applyIncr (line.length + 1) line kl cl pre s

theorem scoreForLineAux_eq (fuel : Nat) (line : List String) (kl cl : Nat)
    (pre : Option String) (count : Nat) (s : Store) :
    scoreForLineAux fuel line kl cl pre count s =
      ((((windowsAux fuel line kl cl pre).map (fun p => scoreVal s p.1 p.2)).sum,
        count + (windowsAux fuel line kl cl pre).length), s) := by
  induction fuel generalizing line count with
  | zero => simp [scoreForLineAux, windowsAux]
  | succ f ih =>
    simp only [scoreForLineAux, windowsAux]
    cases hgkc : get_key_and_completion line kl cl pre with
    | none => simp
    | some kc =>
      obtain ⟨key, comp⟩ := kc
      by_cases hg : key ≠ "" ∧ comp ≠ ""
      · obtain ⟨h1, h2⟩ := hg
        simp [h1, h2, score_for_completion_eq, ih, scoreVal_eq, Prod.ext_iff]
        omega
      · simp [hg]

theorem score_for_line_eq (line : List String) (kl cl : Nat) (pre : Option String)
    (s : Store) :
    score_for_line line kl cl pre s =
      (if 0 < (lineWindows line kl cl pre).length then
          ((lineWindows line kl cl pre).map (fun p => scoreVal s p.1 p.2)).sum /
            ((lineWindows line kl cl pre).length : ℚ)
        else 0, s) := by
  rw [score_for_line, scoreForLineAux_eq]
  simp [lineWindows]

/-! ### C9: scoring is read-only -/

/-- C9: scoring never mutates the model: score_for_completion and
score_for_line return the store exactly as given, so repeated calls with no
intervening add_line_to_index return identical results. -/
theorem c9_scoring_pure :
    (∀ (s : Store) (k c : String) (n : ℚ), (score_for_completion k c n s).2 = s) ∧
    (∀ (s : Store) (line : List String) (kl cl : Nat) (pre : Option String),
      (score_for_line line kl cl pre s).2 = s) ∧
    (∀ (s : Store) (line : List String) (kl cl : Nat) (pre : Option String),
      score_for_line line kl cl pre ((score_for_line line kl cl pre s).2) =
        score_for_line line kl cl pre s) := by
  refine ⟨fun _ _ _ _ => rfl, fun s line kl cl pre => ?_, fun s line kl cl pre => ?_⟩
  · rw [score_for_line_eq]
  · have h2 : (score_for_line line kl cl pre s).2 = s := by rw [score_for_line_eq]
    rw [h2]

/-! ### C2: score_for_completion specification and the concrete test scenario -/

theorem scoreLineVal_eq (s : Store) (line : List String) (kl cl : Nat) (pre : Option String) :
    scoreLineVal s line kl cl pre =
      if 0 < (lineWindows line kl cl pre).length then
        ((lineWindows line kl cl pre).map (fun p => scoreVal s p.1 p.2)).sum /
          ((lineWindows line kl cl pre).length : ℚ)
      else 0 := by
  show (score_for_line line kl cl pre s).1 = _
  rw [score_for_line_eq]

/-- C2: score_for_completion returns raw/max*100; 0 when the key is absent or
holds nothing (maximum treated as 1), 0 when the completion is absent
(frequency treated as 0); and the concrete three-line scenario scores. -/
theorem c2_score_for_completion_spec :
    (∀ (s : Store) (k c : String), memberList s k = [] → scoreVal s k c = 0) ∧
    (∀ (s : Store) (k c : String), zscorePure s k c = none → scoreVal s k c = 0) ∧
    (∀ (s : Store) (k c : String),
      scoreVal s k c =
        (freq s k c : ℚ) / (if maxScore s k = 0 then 1 else (maxScore s k : ℚ)) * 100) ∧
    scoreVal testStore "test:i:ate" "a" = 100 ∧
    scoreVal testStore "test:i:ate" "one" = 50 ∧
    scoreLineVal testStore ["i", "ate", "a", "peach"] 2 1 (some "test") = 100 ∧
    scoreLineVal testStore ["i", "ate", "a", "pizza"] 2 1 (some "test") = 100 / 3 ∧
    scoreLineVal testStore ["i", "ate", "one", "sandwich"] 2 1 (some "test") = 50 / 3 := by
  refine ⟨?_, ?_, fun s k c => scoreVal_eq s k c, ?_, ?_, ?_, ?_, ?_⟩
  · intro s k c h
    rw [scoreVal_eq, freq, zscorePure_of_memberList_nil h]
    simp
  · intro s k c h
    rw [scoreVal_eq, freq, h]
    simp
  · have h1 : freq testStore "test:i:ate" "a" = 2 := by decide
    have h2 : maxScore testStore "test:i:ate" = 2 := by decide
    rw [scoreVal_eq, h1, h2]
    norm_num
  · have h1 : freq testStore "test:i:ate" "one" = 1 := by decide
    have h2 : maxScore testStore "test:i:ate" = 2 := by decide
    rw [scoreVal_eq, h1, h2]
    norm_num
  · have hW : lineWindows ["i", "ate", "a", "peach"] 2 1 (some "test") =
        [("test:i:ate", "a"), ("test:ate:a", "peach"), ("test:a:peach", "\x02")] := by decide
    have f1 : freq testStore "test:i:ate" "a" = 2 := by decide
    have f2 : freq testStore "test:ate:a" "peach" = 1 := by decide
    have f3 : freq testStore "test:a:peach" "\x02" = 1 := by decide
    have m1 : maxScore testStore "test:i:ate" = 2 := by decide
    have m2 : maxScore testStore "test:ate:a" = 1 := by decide
    have m3 : maxScore testStore "test:a:peach" = 1 := by decide
    rw [scoreLineVal_eq, hW]
    simp [scoreVal_eq, f1, f2, f3, m1, m2, m3]
    norm_num
  · have hW : lineWindows ["i", "ate", "a", "pizza"] 2 1 (some "test") =
        [("test:i:ate", "a"), ("test:ate:a", "pizza"), ("test:a:pizza", "\x02")] := by decide
    have f1 : freq testStore "test:i:ate" "a" = 2 := by decide
    have f2 : freq testStore "test:ate:a" "pizza" = 0 := by decide
    have f3 : freq testStore "test:a:pizza" "\x02" = 0 := by decide
    have m1 : maxScore testStore "test:i:ate" = 2 := by decide
    have m2 : maxScore testStore "test:ate:a" = 1 := by decide
    have m3 : maxScore testStore "test:a:pizza" = 0 := by decide
    rw [scoreLineVal_eq, hW]
    simp [scoreVal_eq, f1, f2, f3, m1, m2, m3]
  · have hW : lineWindows ["i", "ate", "one", "sandwich"] 2 1 (some "test") =
        [("test:i:ate", "one"), ("test:ate:one", "sandwich"), ("test:one:sandwich", "\x02")] := by
      decide
    have f1 : freq testStore "test:i:ate" "one" = 1 := by decide
    have f2 : freq testStore "test:ate:one" "sandwich" = 0 := by decide
    have f3 : freq testStore "test:one:sandwich" "\x02" = 0 := by decide
    have m1 : maxScore testStore "test:i:ate" = 2 := by decide
    have m2 : maxScore testStore "test:ate:one" = 1 := by decide
    have m3 : maxScore testStore "test:one:sandwich" = 0 := by decide
    rw [scoreLineVal_eq, hW]
    simp [scoreVal_eq, f1, f2, f3, m1, m2, m3]
    norm_num

theorem c2_witness : scoreVal ([] : Store) "nokey" "nocompletion" = 0 :=
  c2_score_for_completion_spec.1 [] "nokey" "nocompletion" rfl

/-! ### C1: indexing a line then scoring it -/

/-- C1 counterexample: the STOP-free line ["a","a","a","a","b"] has length
5 ≥ key_length + completion_length = 3, yet indexing it once into an empty
model and scoring it with the same parameters gives 175/2, not 100: the key
window (a,a) occurs with completion a (twice) and with completion b (once),
so the b-window scores 50. -/
theorem c1_counterexample :
    scoreLineVal (add_line_to_index ["a", "a", "a", "a", "b"] 2 1 (some "test") [])
      ["a", "a", "a", "a", "b"] 2 1 (some "test") ≠ 100 := by
  have hW : lineWindows ["a", "a", "a", "a", "b"] 2 1 (some "test") =
      [("test:a:a", "a"), ("test:a:a", "a"), ("test:a:a", "b"), ("test:a:b", "\x02")] := by
    decide
  have hS : add_line_to_index ["a", "a", "a", "a", "b"] 2 1 (some "test") [] =
      [(("test:a:a", "a"), 2), (("test:a:a", "b"), 1), (("test:a:b", "\x02"), 1)] := by decide
  rw [hS, scoreLineVal_eq, hW]
  have f1 : freq [(("test:a:a", "a"), 2), (("test:a:a", "b"), 1), (("test:a:b", "\x02"), 1)]
      "test:a:a" "a" = 2 := by decide
  have f2 : freq [(("test:a:a", "a"), 2), (("test:a:a", "b"), 1), (("test:a:b", "\x02"), 1)]
      "test:a:a" "b" = 1 := by decide
  have f3 : freq [(("test:a:a", "a"), 2), (("test:a:a", "b"), 1), (("test:a:b", "\x02"), 1)]
      "test:a:b" "\x02" = 1 := by decide
  have m1 : maxScore [(("test:a:a", "a"), 2), (("test:a:a", "b"), 1), (("test:a:b", "\x02"), 1)]
      "test:a:a" = 2 := by decide
  have m2 : maxScore [(("test:a:a", "a"), 2), (("test:a:a", "b"), 1), (("test:a:b", "\x02"), 1)]
      "test:a:b" = 1 := by decide
  simp [scoreVal_eq, f1, f2, f3, m1, m2]
  norm_num

theorem string_ne_empty_of_data_ne {s : String} (h : s.data ≠ []) : s ≠ "" := by
  intro hx
  rw [hx] at h
  exact h rfl

theorem sepJoin_pair_data (p x : String) :
    (sepJoin [p, x]).data = p.data ++ ':' :: x.data := by
  show (p ++ ":" ++ x).data = _
  rw [String.data_append, String.data_append]
  have h : (":" : String).data = [':'] := by decide
  rw [h, List.append_assoc]
  rfl

theorem make_key_toks_pre_ne_empty (l : List String) (ns : String) (hns : ns ≠ "") :
    make_key (.toks l) (some ns) ≠ "" := by
  apply string_ne_empty_of_data_ne
  have h1 : make_key (.toks l) (some ns) = sepJoin [ns, sepJoin l] := by
    simp [make_key, hns]
  rw [h1, sepJoin_pair_data]
  simp

theorem sepJoin_ne_empty (l : List String) (hl : l ≠ []) (h : ∀ t ∈ l, t ≠ "") :
    sepJoin l ≠ "" := by
  match l with
  | [t] => exact h t (by simp)
  | t :: u :: ts =>
    apply string_ne_empty_of_data_ne
    have : sepJoin (t :: u :: ts) = t ++ ":" ++ sepJoin (u :: ts) := rfl
    rw [this, String.data_append, String.data_append]
    simp

/-- C1 as amended: if additionally the namespace is nonempty, every token of L
is nonempty, and any two visited windows with the same encoded key have the
same encoded completion (in particular whenever all key windows of L are
distinct), then indexing L once into an empty model and immediately scoring L
with the same parameters returns 100. -/
theorem c1_index_then_score_max (line : List String) (kl cl : Nat) (ns : String)
    (hkl : 0 < kl) (hns : ns ≠ "") (hlen : kl + cl ≤ line.length)
    (hstop : STOP ∉ line) (hne : ∀ t ∈ line, t ≠ "")
    (hcoh : ∀ p ∈ lineWindows line kl cl (some ns), ∀ q ∈ lineWindows line kl cl (some ns),
        p.1 = q.1 → p.2 = q.2) :
    scoreLineVal (add_line_to_index line kl cl (some ns) []) line kl cl (some ns) = 100 := by
  rw [add_line_eq_applyIncr, scoreLineVal_eq]
  set W := lineWindows line kl cl (some ns) with hWdef
  -- every visited window scores exactly 100 against the indexed store
  have hmem : ∀ p ∈ W, scoreVal (applyIncr [] W) p.1 p.2 = 100 := by
    rintro ⟨k, c⟩ hp
    have hfilter : ∀ q ∈ W.filter (fun q => decide (q.1 = k)), q.2 = c := by
      intro q hq
      have hq' := List.mem_filter.mp hq
      exact hcoh q hq'.1 (k, c) hp (of_decide_eq_true hq'.2)
    have hfne : W.filter (fun q => decide (q.1 = k)) ≠ [] := by
      apply List.ne_nil_of_mem (a := (k, c))
      exact List.mem_filter.mpr ⟨hp, by simp⟩
    have hmemlist : memberList (applyIncr [] W) k =
        [(c, (W.filter (fun q => decide (q.1 = k))).length)] := by
      rw [memberList_applyIncr]
      have hnil : memberList ([] : Store) k = [] := rfl
      rw [hnil]
      exact foldl_bumpAssoc_const_nil c _ hfilter hfne
    have hmax : maxScore (applyIncr [] W) k =
        (W.filter (fun q => decide (q.1 = k))).length := by
      simp [maxScore, hmemlist]
    have hcount : W.countP (fun q => decide (q = (k, c))) =
        (W.filter (fun q => decide (q.1 = k))).length := by
      rw [List.countP_eq_length_filter]
      congr 1
      apply List.filter_congr
      intro q hq
      by_cases h : q.1 = k
      · have : q.2 = c := hcoh q hq (k, c) hp h
        have hqe : q = (k, c) := Prod.ext h this
        simp [hqe]
      · have : q ≠ (k, c) := fun hx => h (by rw [hx])
        simp [this, h]
    have hfreq : freq (applyIncr [] W) k c =
        (W.filter (fun q => decide (q.1 = k))).length := by
      rw [freq_applyIncr, hcount]
      simp [freq, zscorePure]
    have hpos : 0 < (W.filter (fun q => decide (q.1 = k))).length :=
      List.length_pos.mpr hfne
    rw [scoreVal_eq, hfreq, hmax]
    have hzero : (W.filter (fun q => decide (q.1 = k))).length ≠ 0 :=
      Nat.pos_iff_ne_zero.mp hpos
    rw [if_neg hzero]
    rw [div_self (by exact_mod_cast hzero)]
    norm_num
  -- the first window is visited, so W is nonempty
  have hcond : kl ≤ line.length ∧ STOP ∉ line.take kl :=
    ⟨le_trans (Nat.le_add_right kl cl) hlen,
     fun h => hstop (List.take_subset kl line h)⟩
  have hk₀ : make_key (.toks (line.take kl)) (some ns) ≠ "" :=
    make_key_toks_pre_ne_empty _ ns hns
  have hc₀ :
      (if 1 < cl then make_key (.toks ((line.drop kl).take cl)) none
        else
          match (line.drop kl).head? with
          | some tok => make_key (.str tok) none
          | none => make_key (.str STOP) none) ≠ "" := by
    by_cases hcl : 1 < cl
    · rw [if_pos hcl]
      show sepJoin ((line.drop kl).take cl) ≠ ""
      apply sepJoin_ne_empty
      · have hlen' : cl ≤ (line.drop kl).length := by
          rw [List.length_drop]
          omega
        intro hx
        have := congrArg List.length hx
        rw [List.length_take] at this
        simp at this
        omega
      · intro t ht
        exact hne t (List.drop_subset kl line (List.take_subset cl _ ht))
    · rw [if_neg hcl]
      cases hh : (line.drop kl).head? with
      | some tok =>
        have : tok ∈ line := List.drop_subset kl line (List.mem_of_mem_head? hh)
        exact hne tok this
      | none => decide
  have hWpos : 0 < W.length := by
    have hgkc : get_key_and_completion line kl cl (some ns) =
        some (make_key (.toks (line.take kl)) (some ns),
          if 1 < cl then make_key (.toks ((line.drop kl).take cl)) none
          else
            match (line.drop kl).head? with
            | some tok => make_key (.str tok) none
            | none => make_key (.str STOP) none) := by
      rw [get_key_and_completion, if_pos hcond]
    rw [hWdef, lineWindows, windowsAux, hgkc]
    simp only [hk₀, hc₀, ne_eq, not_false_eq_true, and_self, if_pos]
    simp
  rw [if_pos hWpos]
  have hconst : W.map (fun p => scoreVal (applyIncr [] W) p.1 p.2) =
      W.map (fun _ => (100 : ℚ)) :=
    List.map_congr_left (fun p hp => hmem p hp)
  rw [hconst, List.map_const']
  rw [List.sum_replicate]
  rw [nsmul_eq_mul]
  rw [mul_comm]
  rw [mul_div_assoc]
  rw [div_self (by exact_mod_cast Nat.pos_iff_ne_zero.mp hWpos)]
  norm_num

theorem c1_witness :
    0 < 2 ∧ ("test" : String) ≠ "" ∧ 2 + 1 ≤ (["i", "ate", "a", "peach"] : List String).length ∧
      STOP ∉ (["i", "ate", "a", "peach"] : List String) ∧
      scoreLineVal (add_line_to_index ["i", "ate", "a", "peach"] 2 1 (some "test") [])
        ["i", "ate", "a", "peach"] 2 1 (some "test") = 100 :=
  ⟨by decide, by decide, by decide, by decide,
    c1_index_then_score_max ["i", "ate", "a", "peach"] 2 1 "test" (by decide) (by decide)
      (by decide) (by decide) (by decide) (by decide)⟩

/-! ### C3: the line scan against the spec's offset loop -/

theorem specKey_succ (x : String) (xs : List String) (kl : Nat) (pre : Option String)
    (i : Nat) : specKey (x :: xs) kl pre (i + 1) = specKey xs kl pre i := rfl

theorem specComp_succ (x : String) (xs : List String) (kl cl i : Nat) :
    specComp (x :: xs) kl cl (i + 1) = specComp xs kl cl i := by
  have h : i + 1 + kl = (i + kl) + 1 := by omega
  simp only [specComp, h, List.drop_succ_cons]

theorem specGood_succ (x : String) (xs : List String) (kl cl : Nat) (pre : Option String)
    (i : Nat) : specGood (x :: xs) kl cl pre (i + 1) = specGood xs kl cl pre i := by
  simp only [specGood, specKey_succ, specComp_succ]
  rfl

theorem lineWindows_eq_specWindows (kl cl : Nat) (pre : Option String) (hkl : 0 < kl)
    (line : List String) : lineWindows line kl cl pre = specWindows line kl cl pre := by
  induction line with
  | nil =>
    have hx0 : kl ≠ 0 := Nat.pos_iff_ne_zero.mp hkl
    have h1 : lineWindows [] kl cl pre = [] := by
      simp [lineWindows, windowsAux, get_key_and_completion, hx0]
    have h2 : specWindows [] kl cl pre = [] := by
      have hz : ([] : List String).length + 1 - kl = 0 := by simp; omega
      rw [specWindows, hz]
      rfl
    rw [h1, h2]
  | cons x xs ih =>
    by_cases hk : kl ≤ xs.length + 1
    · have hr : (x :: xs).length + 1 - kl = (xs.length + 1 - kl) + 1 := by
        simp [List.length_cons]; omega
      by_cases hstop : STOP ∈ (x :: xs).take kl
      · have hgkc : get_key_and_completion (x :: xs) kl cl pre = none := by
          simp [get_key_and_completion, hstop]
        have hg0 : specGood (x :: xs) kl cl pre 0 = false := by
          simp [specGood, List.drop_zero, hstop]
        rw [lineWindows, windowsAux]
        rw [hgkc]
        rw [specWindows, hr, List.range_succ_eq_map, List.takeWhile_cons, hg0]
        simp
      · have hgkc : get_key_and_completion (x :: xs) kl cl pre =
            some (specKey (x :: xs) kl pre 0, specComp (x :: xs) kl cl 0) := by
          simp only [get_key_and_completion, List.length_cons, hk, hstop, not_false_eq_true,
            and_self, if_pos, specKey, specComp, Nat.zero_add, List.drop_zero]
          by_cases hcl : 1 < cl
          · simp [hcl]
          · simp [hcl, make_key]
        by_cases hguard : specKey (x :: xs) kl pre 0 ≠ "" ∧ specComp (x :: xs) kl cl 0 ≠ ""
        · have hg0 : specGood (x :: xs) kl cl pre 0 = true := by
            simp [specGood, List.drop_zero, hstop, hguard.1, hguard.2]
          have hLHS : lineWindows (x :: xs) kl cl pre =
              (specKey (x :: xs) kl pre 0, specComp (x :: xs) kl cl 0) ::
                lineWindows xs kl cl pre := by
            rw [lineWindows, windowsAux]
            rw [hgkc]
            show (if specKey (x :: xs) kl pre 0 ≠ "" ∧ specComp (x :: xs) kl cl 0 ≠ "" then
                (specKey (x :: xs) kl pre 0, specComp (x :: xs) kl cl 0) ::
                  windowsAux (x :: xs).length (x :: xs).tail kl cl pre
              else []) = _
            rw [if_pos hguard]
            rfl
          have hps : specGood (x :: xs) kl cl pre ∘ Nat.succ = specGood xs kl cl pre :=
            funext fun i => specGood_succ x xs kl cl pre i
          have hfs : ((fun i => (specKey (x :: xs) kl pre i, specComp (x :: xs) kl cl i)) ∘
              Nat.succ) = fun i => (specKey xs kl pre i, specComp xs kl cl i) :=
            funext fun i => by
              simp [Function.comp, specKey_succ, specComp_succ]
          have hRHS : specWindows (x :: xs) kl cl pre =
              (specKey (x :: xs) kl pre 0, specComp (x :: xs) kl cl 0) ::
                specWindows xs kl cl pre := by
            rw [specWindows, hr, List.range_succ_eq_map, List.takeWhile_cons, hg0]
            simp only [if_true, List.map_cons]
            congr 1
            rw [List.takeWhile_map, List.map_map]
            rw [hps, hfs]
            rfl
          rw [hLHS, ih, hRHS]
        · have hg0 : specGood (x :: xs) kl cl pre 0 = false := by
            rcases not_and_or.mp hguard with h | h
            · simp at h
              simp [specGood, h]
            · simp at h
              simp [specGood, h]
          have hLHS : lineWindows (x :: xs) kl cl pre = [] := by
            rw [lineWindows, windowsAux]
            rw [hgkc]
            simp [hguard]
          rw [hLHS, specWindows, hr, List.range_succ_eq_map, List.takeWhile_cons, hg0]
          simp
    · have hx : ¬(kl ≤ (x :: xs).length) := by simp [List.length_cons]; omega
      have hgkc : get_key_and_completion (x :: xs) kl cl pre = none := by
        simp [get_key_and_completion, hx]
        exact fun h => absurd h hk
      have hz : (x :: xs).length + 1 - kl = 0 := by simp [List.length_cons]; omega
      rw [lineWindows, windowsAux]
      rw [hgkc, specWindows, hz]
      simp

/-- C3 as amended: for positive key_length, add_line_to_index performs exactly
one increment by 1, in offset order, for every starting offset i from 0 while
i + key_length ≤ len(line) — of the encoded completion under the encoded key
of window line[i : i+key_length] (completion line[i+key_length], or STOP when
out of range, for completion_length 1) — stopping the whole line at the first
offset whose window contains STOP OR whose encoded key or completion is the
empty string (the latter happens when completion_length > 1 and no token
remains after the key, or a token is empty); no mutation occurs at or past
the stopping offset, and none once fewer than key_length tokens remain. -/
theorem c3_sliding_window_increments (line : List String) (kl cl : Nat) (pre : Option String)
    (s : Store) (hkl : 0 < kl) :
    add_line_to_index line kl cl pre s = applyIncr s (specWindows line kl cl pre) := by
  rw [add_line_eq_applyIncr, lineWindows_eq_specWindows kl cl pre hkl]

theorem c3_witness :
    0 < 2 ∧
      add_line_to_index ["i", "ate", "a", "peach"] 2 1 (some "test") [] =
        applyIncr [] (specWindows ["i", "ate", "a", "peach"] 2 1 (some "test")) :=
  ⟨by decide,
    c3_sliding_window_increments ["i", "ate", "a", "peach"] 2 1 (some "test") [] (by decide)⟩

/-! ### C5: the quality-floor loop never excludes rejected candidates -/

/-- C5 (code bug): with the test fixture, key "test:i:ate" (completions a:2,
one:1), quality floor 75 and an oracle that always draws index 1 ("one",
scoring 50 < 75), the quality-floor loop runs forever for every fuel bound:
the loop builds its exclude list but the source never passes it to
get_completion, so the rejected candidate "one" is redrawn each time.  Under
the claim, the second draw would have excluded "one" and the loop would have
terminated with "a" or exhaustion. -/
theorem c5_quality_floor_loop_diverges :
    ∀ (f t : Nat) (excl : List String),
      qualityLoop testStore (fun _ => 1) 75 "test:i:ate" none f t "one" excl = .spun := by
  intro f
  induction f with
  | zero => intro t excl; rfl
  | succ f ih =>
    intro t excl
    have hs : scoreVal testStore "test:i:ate" "one" = 50 := by
      have f1 : freq testStore "test:i:ate" "one" = 1 := by decide
      have m1 : maxScore testStore "test:i:ate" = 2 := by decide
      rw [scoreVal_eq, f1, m1]
      norm_num
    have hg : get_completion testStore (fun _ => 1) t (some "test:i:ate") [] none =
        (some "one", t + 1) := rfl
    rw [qualityLoop, if_pos (by rw [hs]; norm_num), hg]
    exact ih (t + 1) (excl ++ ["one"])

/-! ### C4: the generate output contract -/

/-- C4 counterexample: with the test fixture, a caller-supplied seed
["i","ate","a","peach"] (length 4, count_punctuation true) and max_words 2,
the trailing key "test:a:peach" has a completion, the token count 4 + 1
overshoots max_words, and generate falls through returning Python None — not
a token sequence whose length lies between the seed length and max_words. -/
theorem c4_counterexample :
    generate testStore (fun _ => 0) 5 0 (some ["i", "ate", "a", "peach"]) (some "test") 2 0 2
      true none = .pyNone := by
  decide

/-! ### C7: relevance terms that match no key -/

theorem foldl_append_nil {α β : Type} (g : β → List α) (ts : List β)
    (h : ∀ x ∈ ts, g x = []) : ∀ acc : List α, ts.foldl (fun acc x => acc ++ g x) acc = acc := by
  induction ts with
  | nil => intro acc; rfl
  | cons x ts ih =>
    intro acc
    rw [List.foldl_cons, h x (by simp), List.append_nil]
    exact ih (fun y hy => h y (by simp [hy])) acc

theorem get_relevant_no_match (store : Store) (rand : Nat → Nat) (ts : List String)
    (pre : Option String) (tries f t : Nat) (hts : ∀ term ∈ ts, keysMatchingTerm store pre term = [])
    (hf : 0 < f) :
    get_relevant_key_and_seed store rand ts pre tries f t = .ok none [] t := by
  obtain ⟨f', rfl⟩ : ∃ f', f = f' + 1 := ⟨f - 1, (Nat.succ_pred_eq_of_pos hf).symm⟩
  rw [get_relevant_key_and_seed, relLoop]
  have hkeys : (ts.foldl (fun acc term => acc ++ keysMatchingTerm store pre term) []).dedup =
      ([] : List String) := by
    rw [foldl_append_nil _ ts hts []]
    rfl
  rw [if_pos (by simp)]
  rw [hkeys]
  cases pre with
  | none => simp [pickD, stripPre]
  | some p => simp [pickD, stripPre]

/-- C7: if none of the caller-supplied relevance terms matches any key of the
namespace, generate called without a seed and with those relevant_terms
deterministically returns the empty token sequence — the relevance-biased
seed selection breaks out with key None and empty seed (NoMatchingKeys), the
None key yields no completion, and generate returns the empty seed — for
every oracle, floor, max_words, key_length and count_punctuation flag. -/
theorem c7_no_matching_terms_empty (store : Store) (rand : Nat → Nat) (t : Nat) (p : String)
    (ts : List String) (f maxW kl : Nat) (qf : ℚ) (cp : Bool)
    (hts : ts ≠ []) (hmatch : ∀ term ∈ ts, keysMatchingTerm store (some p) term = [])
    (hf : 0 < f) :
    generate store rand f t none (some p) maxW qf kl cp (some ts) = .list [] := by
  obtain ⟨f', rfl⟩ : ∃ f', f = f' + 1 := ⟨f - 1, (Nat.succ_pred_eq_of_pos hf).symm⟩
  have hsel : get_key_and_seed store rand (f' + 1) t (some p) (some ts) = .ok none [] t := by
    rw [get_key_and_seed]
    rw [if_pos (List.length_pos.mpr hts)]
    exact get_relevant_no_match store rand ts (some p) 10 (f' + 1) t hmatch (Nat.succ_pos f')
  rw [generate]
  rw [hsel]
  have hgc : get_completion store rand t none [] (some ts) = (none, t) := rfl
  simp [hgc, stripStop]

theorem c7_witness :
    (["pizza"] : List String) ≠ [] ∧
      (∀ term ∈ (["pizza"] : List String), keysMatchingTerm testStore (some "test") term = []) ∧
      0 < 3 ∧
      generate testStore (fun _ => 0) 3 0 none (some "test") 1000 0 2 true (some ["pizza"]) =
        .list [] :=
  ⟨by decide, by decide, by decide,
    c7_no_matching_terms_empty testStore (fun _ => 0) 0 "test" ["pizza"] 3 1000 2 0 true
      (by decide) (by decide) (by decide)⟩

/-! ### Facts about completions drawn from a well-formed store -/

theorem pickD_mem {rand : Nat → Nat} {t : Nat} {l : List String} {c : String}
    (h : pickD rand t l = some c) : c ∈ l :=
  List.get?_mem h

theorem get_completion_mem {store : Store} {rand : Nat → Nat} {t : Nat} {k : String}
    {ex : List String} {rt : Option (List String)} {c : String} {t' : Nat}
    (h : get_completion store rand t (some k) ex rt = (some c, t')) :
    c ∈ membersOf store k := by
  simp only [get_completion.eq_def] at h
  by_cases hlen : 0 < ((membersOf store k).filter (fun c => decide (c ∉ ex))).length
  · rw [if_pos hlen] at h
    have hfilter : ∀ {x : String},
        x ∈ (membersOf store k).filter (fun c => decide (c ∉ ex)) → x ∈ membersOf store k :=
      fun hx => (List.mem_filter.mp hx).1
    match rt with
    | none =>
      dsimp only at h
      cases hp : pickD rand t ((membersOf store k).filter (fun c => decide (c ∉ ex))) with
      | none => rw [hp] at h; exact absurd h (by simp)
      | some x =>
        rw [hp] at h
        simp at h
        exact h.1 ▸ hfilter (pickD_mem hp)
    | some ts =>
      dsimp only at h
      by_cases hts : ts = []
      · rw [if_pos hts] at h
        cases hp : pickD rand t ((membersOf store k).filter (fun c => decide (c ∉ ex))) with
        | none => rw [hp] at h; exact absurd h (by simp)
        | some x =>
          rw [hp] at h
          simp at h
          exact h.1 ▸ hfilter (pickD_mem hp)
      · rw [if_neg hts] at h
        cases hp1 : pickD rand t
            (((membersOf store k).filter (fun c => decide (c ∉ ex))).filter
              (fun c => decide (c ∈ ts))) with
        | some x =>
          rw [hp1] at h
          simp at h
          exact h.1 ▸ hfilter (List.mem_filter.mp (pickD_mem hp1)).1
        | none =>
          rw [hp1] at h
          cases hp2 : pickD rand t ((membersOf store k).filter (fun c => decide (c ∉ ex))) with
          | none => rw [hp2] at h; exact absurd h (by simp)
          | some x =>
            rw [hp2] at h
            simp at h
            exact h.1 ▸ hfilter (pickD_mem hp2)
  · rw [if_neg hlen] at h
    exact absurd h (by simp)

theorem memberList_mem {s : Store} {k c : String} {n : Nat}
    (h : (c, n) ∈ memberList s k) : ((k, c), n) ∈ s := by
  induction s with
  | nil => simp [memberList] at h
  | cons e rest ih =>
    obtain ⟨⟨k', c'⟩, m⟩ := e
    by_cases hk : k' = k
    · subst hk
      rw [memberList, if_pos rfl] at h
      rcases List.mem_cons.mp h with h1 | h1
      · injection h1 with h2 h3
        subst h2; subst h3
        exact List.mem_cons_self _ _
      · exact List.mem_cons_of_mem _ (ih h1)
    · rw [memberList, if_neg hk] at h
      exact List.mem_cons_of_mem _ (ih h)

theorem goodMember_of_mem {store : Store} {k c : String} (hwf : WellFormedStore store)
    (h : c ∈ membersOf store k) : GoodMember c := by
  rw [membersOf] at h
  obtain ⟨⟨c', n⟩, hm, hc⟩ := List.mem_map.mp h
  have hg : GoodMember c' := (hwf ((k, c'), n) (memberList_mem hm)).1
  exact hc ▸ hg

theorem memberList_nil_of_no_key {s : Store} {k : String} (h : ∀ e ∈ s, e.1.1 ≠ k) :
    memberList s k = [] := by
  induction s with
  | nil => rfl
  | cons e rest ih =>
    obtain ⟨⟨k', c'⟩, n⟩ := e
    have hk : k' ≠ k := h ((k', c'), n) (by simp)
    rw [memberList]
    simp only [if_neg hk]
    exact ih (fun e he => h e (List.mem_cons_of_mem _ he))

theorem memberList_nil_of_stopchar {store : Store} {k : String} (hwf : WellFormedStore store)
    (h : STOPchar ∈ k.data) : memberList store k = [] :=
  memberList_nil_of_no_key (fun e he hk => (hwf e he).2 (hk ▸ h))

theorem get_completion_none_of_no_members {store : Store} {rand : Nat → Nat} {t : Nat}
    {k : String} {ex : List String} {rt : Option (List String)}
    (h : membersOf store k = []) :
    get_completion store rand t (some k) ex rt = (none, t) := by
  simp only [get_completion.eq_def, h]
  simp

theorem mem_sepJoin_data {w : List String} {tok : String} (ht : tok ∈ w) {ch : Char}
    (hc : ch ∈ tok.data) : ch ∈ (sepJoin w).data := by
  induction w with
  | nil => simp at ht
  | cons x xs ih =>
    rcases xs with _ | ⟨y, ys⟩
    · rcases List.mem_singleton.mp ht with rfl
      exact hc
    · have hstep : sepJoin (x :: y :: ys) = x ++ ":" ++ sepJoin (y :: ys) := rfl
      rw [hstep, String.data_append, String.data_append]
      rcases List.mem_cons.mp ht with rfl | hmem
      · exact List.mem_append_left _ (List.mem_append_left _ hc)
      · exact List.mem_append_right _ (ih hmem)

theorem stopchar_mem_make_key {w : List String} (hw : STOP ∈ w) (pre : Option String) :
    STOPchar ∈ (make_key (.toks w) pre).data := by
  have hs : STOPchar ∈ STOP.data := by decide
  have hj : STOPchar ∈ (sepJoin w).data := mem_sepJoin_data hw hs
  match pre with
  | none => exact hj
  | some p =>
    by_cases hp : p = ""
    · simp [make_key, hp]
      exact hj
    · have : make_key (.toks w) (some p) = sepJoin [p, sepJoin w] := by simp [make_key, hp]
      rw [this, sepJoin_pair_data]
      exact List.mem_append_right _ (List.mem_cons_of_mem _ hj)

theorem stop_mem_lastSlice {kl : Nat} (hkl : 0 < kl) (seed : List String) :
    STOP ∈ lastSlice kl (seed ++ [STOP]) := by
  rw [lastSlice, if_neg (Nat.pos_iff_ne_zero.mp hkl)]
  have hle : (seed ++ [STOP]).length - kl ≤ seed.length := by
    rw [List.length_append]
    simp
    omega
  rw [List.drop_append_of_le_length hle]
  exact List.mem_append_right _ (by simp)

theorem splitChars_no_sep {sep : Char} : ∀ {cs : List Char}, sep ∉ cs →
    splitChars sep cs = [cs] := by
  intro cs
  induction cs with
  | nil => intro _; rfl
  | cons c cs ih =>
    intro h
    have hc : c ≠ sep := fun hx => h (hx ▸ List.mem_cons_self c cs)
    have hcs : sep ∉ cs := fun hx => h (List.mem_cons_of_mem _ hx)
    rw [splitChars, if_neg hc, ih hcs]

theorem string_mk_data (s : String) : String.mk s.data = s := by
  cases s
  rfl

theorem pySplit_single {c : String} (h : ':' ∉ c.data) : pySplit c = [c] := by
  rw [pySplit, splitChars_no_sep h]
  simp [string_mk_data]

theorem pySplit_stop : pySplit STOP = [STOP] := by decide

theorem stripStop_of_not_mem {l : List String} (h : STOP ∉ l) : stripStop l = l := by
  rw [stripStop, if_neg h]

theorem stripStop_append_stop {l : List String} (h : STOP ∉ l) :
    stripStop (l ++ [STOP]) = l := by
  rw [stripStop, if_pos (List.mem_append_right l (by simp))]
  rw [List.erase_append_right _ h]
  simp

theorem goodMember_ne_empty {c : String} (h : GoodMember c) : c ≠ "" := by
  rcases h with rfl | ⟨hne, _, _⟩
  · decide
  · exact hne

theorem goodMember_ne_stop {c : String} (h : GoodMember c) (hch : STOPchar ∉ c.data) :
    c ≠ STOP := by
  intro hx
  rw [hx] at hch
  exact hch (by decide)

/-! ### One step of generate with an explicit seed and quality floor 0 -/

theorem generate_step_none (store : Store) (rand : Nat → Nat) (f t : Nat) (seed : List String)
    (pre : Option String) (maxW kl : Nat) (cp : Bool) (rterms : Option (List String))
    {t₂ : Nat}
    (hgc : get_completion store rand t (some (make_key (.toks (lastSlice kl seed)) pre)) []
      rterms = (none, t₂)) :
    generate store rand (f + 1) t (some seed) pre maxW 0 kl cp rterms =
      .list (stripStop seed) := by
  rw [generate]
  dsimp only
  rw [hgc]

theorem generate_step_some (store : Store) (rand : Nat → Nat) (f t : Nat) (seed : List String)
    (pre : Option String) (maxW kl : Nat) (cp : Bool) (rterms : Option (List String))
    {c : String} {t₂ : Nat}
    (hgc : get_completion store rand t (some (make_key (.toks (lastSlice kl seed)) pre)) []
      rterms = (some c, t₂))
    (hc : c ≠ "") :
    generate store rand (f + 1) t (some seed) pre maxW 0 kl cp rterms =
      (if count_tokens seed cp + count_tokens (pySplit c) cp < maxW then
        generate store rand f t₂ (some (seed ++ pySplit c)) pre maxW 0 kl cp rterms
      else if count_tokens seed cp + count_tokens (pySplit c) cp = maxW then
        .list (seed ++ (if STOP ∈ pySplit c then (pySplit c).erase STOP else pySplit c))
      else .pyNone) := by
  rw [generate]
  dsimp only
  rw [hgc]
  dsimp only
  rw [if_neg (fun hx : c ≠ "" ∧ (0 : ℚ) < 0 => absurd hx.2 (lt_irrefl 0))]
  dsimp only
  rw [if_neg hc]

theorem c4_aux (store : Store) (rand : Nat → Nat) (pre : Option String)
    (rterms : Option (List String)) (kl maxW : Nat) (hwf : WellFormedStore store)
    (hkl : 0 < kl) :
    ∀ (f : Nat) (seed : List String) (t : Nat), STOP ∉ seed → seed.length < maxW →
      maxW - seed.length + 2 ≤ f →
      ∃ out, generate store rand f t (some seed) pre maxW 0 kl true rterms = .list out ∧
        STOP ∉ out ∧ seed.length ≤ out.length ∧ out.length ≤ maxW := by
  intro f
  induction f with
  | zero => intro seed t _ _ hf; omega
  | succ f ih =>
    intro seed t hstop hlen hf
    rcases hgc : get_completion store rand t
        (some (make_key (.toks (lastSlice kl seed)) pre)) [] rterms with ⟨c0, t₂⟩
    cases c0 with
    | none =>
      refine ⟨seed, ?_, hstop, le_refl _, le_of_lt hlen⟩
      rw [generate_step_none store rand f t seed pre maxW kl true rterms hgc]
      rw [stripStop_of_not_mem hstop]
    | some c =>
      have hmem : c ∈ membersOf store (make_key (.toks (lastSlice kl seed)) pre) :=
        get_completion_mem hgc
      have hgood : GoodMember c := goodMember_of_mem hwf hmem
      have hcne : c ≠ "" := goodMember_ne_empty hgood
      rw [generate_step_some store rand f t seed pre maxW kl true rterms hgc hcne]
      rcases hgood with rfl | ⟨h1, h2, h3⟩
      · -- the drawn completion is the STOP sentinel
        rw [pySplit_stop]
        by_cases hlt : seed.length + 1 < maxW
        · have hcond : count_tokens seed true + count_tokens [STOP] true < maxW := by
            simp [count_tokens]; omega
          rw [if_pos hcond]
          obtain ⟨f₁, rfl⟩ : ∃ f₁, f = f₁ + 1 := ⟨f - 1, by omega⟩
          have hkeychar :
              STOPchar ∈ (make_key (.toks (lastSlice kl (seed ++ [STOP]))) pre).data :=
            stopchar_mem_make_key (stop_mem_lastSlice hkl seed) pre
          have hnomem :
              membersOf store (make_key (.toks (lastSlice kl (seed ++ [STOP]))) pre) = [] := by
            rw [membersOf, memberList_nil_of_stopchar hwf hkeychar]
            rfl
          have hgc2 : get_completion store rand t₂
              (some (make_key (.toks (lastSlice kl (seed ++ [STOP]))) pre)) [] rterms =
                (none, t₂) :=
            get_completion_none_of_no_members hnomem
          rw [generate_step_none store rand f₁ t₂ (seed ++ [STOP]) pre maxW kl true rterms hgc2]
          rw [stripStop_append_stop hstop]
          exact ⟨seed, rfl, hstop, le_refl _, le_of_lt hlen⟩
        · have heq : count_tokens seed true + count_tokens [STOP] true = maxW := by
            simp [count_tokens]; omega
          rw [if_neg (by simp [count_tokens]; omega), if_pos heq]
          have hstrip : (if STOP ∈ ([STOP] : List String) then
              ([STOP] : List String).erase STOP else [STOP]) = [] := by simp
          rw [hstrip, List.append_nil]
          exact ⟨seed, rfl, hstop, le_refl _, le_of_lt hlen⟩
      · -- the drawn completion is a clean single token
        have hcstop : c ≠ STOP := goodMember_ne_stop (Or.inr ⟨h1, h2, h3⟩) h3
        rw [pySplit_single h2]
        by_cases hlt : seed.length + 1 < maxW
        · have hcond : count_tokens seed true + count_tokens [c] true < maxW := by
            simp [count_tokens]; omega
          rw [if_pos hcond]
          have hstop' : STOP ∉ seed ++ [c] := by
            intro hx
            rcases List.mem_append.mp hx with hx | hx
            · exact hstop hx
            · exact hcstop (List.mem_singleton.mp hx).symm
          have hlen' : (seed ++ [c]).length < maxW := by simp; omega
          have hf' : maxW - (seed ++ [c]).length + 2 ≤ f := by simp; omega
          obtain ⟨out, hgen, ho1, ho2, ho3⟩ := ih (seed ++ [c]) t₂ hstop' hlen' hf'
          refine ⟨out, hgen, ho1, le_trans ?_ ho2, ho3⟩
          simp
        · have heq : count_tokens seed true + count_tokens [c] true = maxW := by
            simp [count_tokens]; omega
          rw [if_neg (by simp [count_tokens]; omega), if_pos heq]
          have hnostop : STOP ∉ ([c] : List String) := by
            intro hx
            exact hcstop (List.mem_singleton.mp hx).symm
          rw [if_neg hnostop]
          refine ⟨seed ++ [c], rfl, ?_, by simp, ?_⟩
          · intro hx
            rcases List.mem_append.mp hx with hx | hx
            · exact hstop hx
            · exact hcstop (List.mem_singleton.mp hx).symm
          · simp [count_tokens] at heq
            simp
            omega

/-- C4 as amended: for a well-formed store (every stored completion is either
the STOP sentinel or a nonempty token free of the separator and STOP
characters, and keys containing the STOP character hold no completions),
quality floor 0, count_punctuation true, positive key_length, and a
caller-supplied STOP-free seed strictly shorter than max_words, generate
(given fuel past max_words, within which it always returns) returns a token
sequence that never contains STOP and whose length lies between the initial
seed length and max_words inclusive.  (As stated the claim fails: a seed at
or above max_words whose trailing window has a completion makes generate
return None — see the counterexample.) -/
theorem c4_generate_output_contract (store : Store) (rand : Nat → Nat) (pre : Option String)
    (rterms : Option (List String)) (seed₀ : List String) (maxW kl f t : Nat)
    (hwf : WellFormedStore store) (hkl : 0 < kl) (hstop : STOP ∉ seed₀)
    (hlen : seed₀.length < maxW) (hf : maxW + 2 ≤ f) :
    ∃ out, generate store rand f t (some seed₀) pre maxW 0 kl true rterms = .list out ∧
      STOP ∉ out ∧ seed₀.length ≤ out.length ∧ out.length ≤ maxW :=
  c4_aux store rand pre rterms kl maxW hwf hkl f seed₀ t hstop hlen (by omega)

theorem c4_witness :
    WellFormedStore testStore ∧ 0 < 2 ∧ STOP ∉ (["i", "ate"] : List String) ∧
      (["i", "ate"] : List String).length < 3 ∧ 3 + 2 ≤ 5 ∧
      ∃ out, generate testStore (fun _ => 0) 5 0 (some ["i", "ate"]) (some "test") 3 0 2 true
          none = .list out ∧
        STOP ∉ out ∧ (["i", "ate"] : List String).length ≤ out.length ∧ out.length ≤ 3 :=
  ⟨by decide, by decide, by decide, by decide, by decide,
    c4_generate_output_contract testStore (fun _ => 0) (some "test") none ["i", "ate"] 3 2 5 0
      (by decide) (by decide) (by decide) (by decide) (by decide)⟩
